import Mathlib

/-!
Verification of the Talps Manager task scheduler (`src/manager.rs`,
`src/spmc_queue.rs`, `src/task.rs`) against its natural-language
specification.

The development shallowly embeds the scheduler:

* `ManagerStatus`, `Status`, `Task` mirror the Rust enums and the `Task`
  struct of `task.rs` / `manager.rs`.
* Model A (`MgrState`, `submitR`, `popF`, `completeF`, `Reach`) embeds the
  dependency-graph bookkeeping of `TaskManager::submit`,
  `TaskManager::is_ready` and the worker completion block
  (`manager.rs` lines 80-99, 114-160), at the granularity of atomic
  submit / dequeue / completion steps interleaved in any order.
  The `BTreeMap<usize, Arc<RwLock<Task>>>` registry is modelled by a heap
  `records` of all task records ever created (the `Arc`s) together with the
  key set `mapIds` of the ids currently in the map; queue and workers hold
  ids into the heap, exactly as the `Arc` handles share the records.
  `TaskRec.registered` and `TaskRec.declared` are ghost fields recording,
  at submission time, which dependency occurrences were found in the map
  (and hence had an edge registered) and the full declared dependency list.
* Model B (`Sys`, `wstep`, `mrun`, `mstop`, `mshutdown`, `mpush`,
  `wfinish`) embeds one worker thread of the pool spawned in
  `TaskManager::new` (lines 52-103) together with the lifecycle operations,
  making the condition-variable wakeups explicit: a blocked control state
  changes only when the corresponding condition variable is notified.
* `workerExecActs` embeds the execution branch of the worker body
  (lines 75-77) together with `task_test_run` (lines 209-216) as the list
  of externally visible actions it performs.

Submissions in `Reach` carry a fresh id, zero initial in-degree and an
empty `next` list, as every construction site in the repository does and
as the specified `submit_task(name, command, depIds)` interface implies.
-/

namespace Talps

/-- The `ManagerStatus` enum of `manager.rs`: `Running`, `Stopped` (default initial),
`Shutdown`. -/
inductive ManagerStatus where
  | Running
  | Stopped
  | Shutdown
deriving Repr, DecidableEq

/-- The `Status` enum of `task.rs` (only `Running` and `Pending` exist there). -/
inductive Status where
  | Running
  | Pending
deriving Repr, DecidableEq

/-- The `Task` struct of `task.rs`. -/
structure Task where
  id : Nat
  name : String
  depend : List Nat
  status : Status
  file_name : String
  in_degree : Nat
  next : List Nat
  test : Bool
deriving Repr, DecidableEq

/-- The mutable record a task's shared `Arc<RwLock<Task>>` cell holds, as
far as the scheduler reads and writes it: its in-degree, its `next` list of
dependent ids and its `test` flag.  `registered` and `declared` are ghost
fields: `declared` is the submitted `depend` list, `registered` the
sublist of dependency occurrences that were found in the registry at
submission (those for which `is_ready` incremented the in-degree and
appended an edge). -/
structure TaskRec where
  in_degree : Nat
  next : List Nat
  test : Bool
  registered : List Nat
  declared : List Nat
deriving Repr, DecidableEq

/-- Lookup in an association list keyed by task id (the `BTreeMap::get`). -/
def lookupRec : Nat → List (Nat × TaskRec) → Option TaskRec
  | _, [] => none
  | k, (i, r) :: rest => if k = i then some r else lookupRec k rest

/-- Update every record stored under a key (with distinct keys: the one
record), modelling a write through the shared `Arc`. -/
def updRec (k : Nat) (f : TaskRec → TaskRec) : List (Nat × TaskRec) → List (Nat × TaskRec)
  | [] => []
  | (i, r) :: rest =>
      if k = i then (i, f r) :: updRec k f rest else (i, r) :: updRec k f rest

/-- Number of occurrences of `a` in a list of ids. -/
def cnt (a : Nat) : List Nat → Nat
  | [] => 0
  | b :: l => (if a = b then 1 else 0) + cnt a l

/-- Number of entries of `l` that are not in `completed` (the still-pending
dependency occurrences). -/
def pcnt (completed : List Nat) : List Nat → Nat
  | [] => 0
  | d :: l => (if d ∈ completed then 0 else 1) + pcnt completed l

/-- Status transition of `TaskManager::run` (lines 161-178): the resulting
status and whether the call returned `Ok`. -/
def runStep : ManagerStatus → ManagerStatus × Bool
  | .Running => (.Running, true)
  | .Stopped => (.Running, true)
  | .Shutdown => (.Shutdown, false)

/-- Status transition of `TaskManager::stop` (lines 179-195). -/
def stopStep : ManagerStatus → ManagerStatus × Bool
  | .Running => (.Stopped, true)
  | .Stopped => (.Stopped, true)
  | .Shutdown => (.Shutdown, false)

/-- Status transition of `TaskManager::shutdown` (lines 196-208). -/
def shutdownStep : ManagerStatus → ManagerStatus × Bool
  | .Running => (.Shutdown, true)
  | .Stopped => (.Shutdown, true)
  | .Shutdown => (.Shutdown, false)

/-- A lifecycle operation. -/
inductive MOp where
  | run
  | stop
  | shutdown
deriving Repr, DecidableEq

/-- Apply one lifecycle operation to a status. -/
def applyOp : MOp → ManagerStatus → ManagerStatus × Bool
  | .run, st => runStep st
  | .stop, st => stopStep st
  | .shutdown, st => shutdownStep st

/-- Apply a sequence of lifecycle operations, ignoring results. -/
def applyOps : List MOp → ManagerStatus → ManagerStatus
  | [], st => st
  | op :: ops, st => applyOps ops (applyOp op st).1

/-- Scheduler state (model A).  `records` is the heap of all task records
ever created, keyed by id (the targets of the `Arc` handles); `mapIds` is
the key set of the `BTreeMap` registry `task_map`; `queue` is the id
sequence of the ready queue `ready_q` (head = oldest); `executing` holds,
for every task popped by a worker and not yet completed, its id together
with the clone of its `next` list taken right after the pop
(`task.read().unwrap().clone()` in line 72); `completed` lists the ids of
tasks whose completion block has run. -/
structure MgrState where
  status : ManagerStatus
  records : List (Nat × TaskRec)
  mapIds : List Nat
  queue : List Nat
  executing : List (Nat × List Nat)
  completed : List Nat
deriving Repr, DecidableEq

/-- The state of a fresh `TaskManager` (empty map, empty queue, status
`Stopped`). -/
def initState : MgrState :=
  { status := .Stopped, records := [], mapIds := [], queue := [],
    executing := [], completed := [] }

/-- Snapshot of a task's `next` list taken through its shared handle. -/
def snapOf (i : Nat) (m : MgrState) : List Nat :=
  match lookupRec i m.records with
  | some r => r.next
  | none => []

/-- The loop of `TaskManager::is_ready` (lines 148-158): for each declared
dependency occurrence, if the id is in the registry, append the new task's
id to that dependency's `next` list and count one in-degree increment.
Returns the updated heap, the number of increments and the ghost list of
found dependency occurrences. -/
def regDeps (tid : Nat) (mapIds : List Nat) :
    List Nat → List (Nat × TaskRec) → List (Nat × TaskRec) × Nat × List Nat
  | [], recs => (recs, 0, [])
  | d :: ds, recs =>
      if d ∈ mapIds then
        let recs' := updRec d (fun r => { r with next := r.next ++ [tid] }) recs
        let res := regDeps tid mapIds ds recs'
        (res.1, res.2.1 + 1, d :: res.2.2)
      else
        regDeps tid mapIds ds recs

/-- The body of `TaskManager::submit` (lines 114-142) as one atomic step: on status
`Shutdown` it returns an error and touches nothing; otherwise it runs the
`is_ready` registration loop, pushes the task onto the ready queue exactly
when `is_ready` returned true (declared dependency list empty, or no
declared dependency found in the registry), and inserts the task into the
registry.  The boolean is `true` iff the call returned `Ok`. -/
def submitR (t : Task) (s : MgrState) : MgrState × Bool :=
  match s.status with
  | .Shutdown => (s, false)
  | _ =>
      let res := regDeps t.id s.mapIds t.depend s.records
      let ready := t.depend.isEmpty || res.2.1 == 0
      let trec : TaskRec :=
        { in_degree := t.in_degree + res.2.1, next := t.next, test := t.test,
          registered := res.2.2, declared := t.depend }
      ({ s with
          records := (t.id, trec) :: res.1,
          mapIds := t.id :: s.mapIds,
          queue := if ready then s.queue ++ [t.id] else s.queue }, true)

/-- One worker dequeuing the oldest ready task (`ready_q.pop()` followed by
the clone in line 72): the id leaves the queue and enters `executing`
together with the snapshot of its current `next` list. -/
def popF (s : MgrState) : Option MgrState :=
  match s.queue with
  | [] => none
  | i :: rest =>
      some { s with queue := rest, executing := s.executing ++ [(i, snapOf i s)] }

/-- The dependent-release loop of the worker completion block (lines
84-95): for each id of the completed task's `next` snapshot, if it is in
the registry, assert its in-degree is nonzero (`assert_ne!` in line 88 —
modelled as returning `none` when it would panic), decrement it, and if it
reached zero append it to the ready list and push it onto the queue.
Returns the updated heap and the accumulated ready list. -/
def completeLoop (mapIds : List Nat) :
    List (Nat × TaskRec) → List Nat → List Nat → Option (List (Nat × TaskRec) × List Nat)
  | recs, ready, [] => some (recs, ready)
  | recs, ready, n :: ns =>
      if n ∈ mapIds then
        match lookupRec n recs with
        | some r =>
            if r.in_degree = 0 then none
            else
              let recs' := updRec n (fun q => { q with in_degree := q.in_degree - 1 }) recs
              if r.in_degree - 1 = 0 then
                completeLoop mapIds recs' (ready ++ [n]) ns
              else
                completeLoop mapIds recs' ready ns
        | none => completeLoop mapIds recs ready ns
      else completeLoop mapIds recs ready ns

/-- The worker completion block (lines 80-99) for a popped task `i` whose
`next` snapshot is `snap`: remove `i` from the registry, run the release
loop over `snap`, then remove every released id from the registry; the
released ids were pushed onto the ready queue in release order.  `none`
models the `assert_ne!` panic. -/
def completeF (i : Nat) (snap : List Nat) (s : MgrState) : Option MgrState :=
  let m1 := s.mapIds.filter (fun x => decide (x ≠ i))
  match completeLoop m1 s.records [] snap with
  | none => none
  | some (recs', ready) =>
      some { s with
        records := recs',
        mapIds := m1.filter (fun x => decide (x ∉ ready)),
        queue := s.queue ++ ready,
        executing := s.executing.filter (fun p => decide (p.1 ≠ i)),
        completed := s.completed ++ [i] }

/-- States reachable from a fresh manager by any interleaving of submit,
lifecycle, dequeue and completion steps.  Submissions carry a fresh id, a
zero initial in-degree and an empty `next` list, as at every construction
site of `Task` in the repository. -/
inductive Reach : MgrState → Prop where
  | init : Reach initState
  | submit {s : MgrState} (t : Task) :
      Reach s → lookupRec t.id s.records = none → t.in_degree = 0 → t.next = [] →
      Reach (submitR t s).1
  | lifecycle {s : MgrState} (op : MOp) :
      Reach s → Reach { s with status := (applyOp op s.status).1 }
  | pop {s s' : MgrState} :
      Reach s → popF s = some s' → Reach s'
  | complete {s s' : MgrState} (i : Nat) (snap : List Nat) :
      Reach s → (i, snap) ∈ s.executing → completeF i snap s = some s' → Reach s'

/-- Control state of one worker thread of the loop in `TaskManager::new`
(lines 57-102).  `outerCheck` is the top of the loop (about to test the
local `status_v`); `stoppedWait` is the thread blocked in
`condvar.wait` on the status condition variable (line 65); `popWait` is
the thread blocked inside `ready_q.pop()` on the queue's condition
variable while the queue is empty (`spmc_queue.rs` lines 31-36);
`running` holds a popped task's id, `next` snapshot and `test` flag;
`exited` is the closure having returned `Ok(())`; `errored` is the closure
having returned early with an `Err` through the `?` operator. -/
inductive WCtl where
  | outerCheck
  | stoppedWait
  | popWait
  | running (id : Nat) (snap : List Nat) (test : Bool)
  | exited
  | errored
deriving Repr, DecidableEq

/-- Whole-system state for the worker/lifecycle model (model B): the
shared scheduler state, one worker's control state, and that worker's
local copy `status_v` of the status (read at spawn and re-read only inside
the stopped-wait loop, line 65). -/
structure Sys where
  mgr : MgrState
  wctl : WCtl
  statusV : ManagerStatus
deriving Repr, DecidableEq

/-- A task's `test` flag read through its shared handle. -/
def testOf (i : Nat) (m : MgrState) : Bool :=
  match lookupRec i m.records with
  | some r => r.test
  | none => false

/-- Internal progress of an unblocked worker at the top of its loop
(lines 63-72): exit if the local `status_v` is `Shutdown`; enter the
stopped-wait if it is `Stopped`; otherwise attempt `ready_q.pop()`,
blocking on the queue's condition variable when the queue is empty and
otherwise dequeuing the oldest task. -/
def wstep (s : Sys) : Sys :=
  match s.wctl with
  | .outerCheck =>
      if s.statusV = .Shutdown then { s with wctl := .exited }
      else if s.statusV = .Stopped then { s with wctl := .stoppedWait }
      else
        match s.mgr.queue with
        | [] => { s with wctl := .popWait }
        | i :: rest =>
            let m2 : MgrState :=
              { s.mgr with
                  queue := rest
                  executing := s.mgr.executing ++ [(i, snapOf i s.mgr)] }
            { s with mgr := m2, wctl := .running i (snapOf i s.mgr) (testOf i s.mgr) }
  | _ => s

/-- The call `TaskManager::run` (lines 161-178) in model B: on `Stopped`
it sets the status to `Running` and calls `condvar.notify_all()` on the
status condition variable, which wakes a worker blocked in the
stopped-wait (the worker re-reads the now-`Running` status and proceeds to
its loop top); it performs no other notification.  Boolean: `Ok`? -/
def mrun (s : Sys) : Sys × Bool :=
  match s.mgr.status with
  | .Running => (s, true)
  | .Stopped =>
      let s1 : Sys := { s with mgr := { s.mgr with status := .Running } }
      (if s1.wctl = .stoppedWait
        then { s1 with wctl := .outerCheck, statusV := .Running }
        else s1, true)
  | .Shutdown => (s, false)

/-- The call `TaskManager::stop` (lines 179-195) in model B: on `Running`
it sets the status to `Stopped`; it notifies no condition variable, so no
blocked worker is woken. -/
def mstop (s : Sys) : Sys × Bool :=
  match s.mgr.status with
  | .Running => ({ s with mgr := { s.mgr with status := .Stopped } }, true)
  | .Stopped => (s, true)
  | .Shutdown => (s, false)

/-- The call `TaskManager::shutdown` (lines 196-208) in model B: on
`Running` or `Stopped` it sets the status to `Shutdown` and returns `Ok`;
it notifies no condition variable and joins none of the handles stored in
the `threads` field, so the worker's state is untouched. -/
def mshutdown (s : Sys) : Sys × Bool :=
  match s.mgr.status with
  | .Running => ({ s with mgr := { s.mgr with status := .Shutdown } }, true)
  | .Stopped => ({ s with mgr := { s.mgr with status := .Shutdown } }, true)
  | .Shutdown => (s, false)

/-- The call `SPMCQueue::push` (`spmc_queue.rs` lines 21-29): append the
task and `notify_one` on the queue's condition variable; a worker blocked
in `pop` re-checks, finds the queue nonempty, and dequeues the oldest
entry. -/
def mpush (i : Nat) (s : Sys) : Sys :=
  let m1 : MgrState := { s.mgr with queue := s.mgr.queue ++ [i] }
  if s.wctl = .popWait then
    match m1.queue with
    | [] => { s with mgr := m1 }
    | j :: rest =>
        let m2 : MgrState :=
          { m1 with
              queue := rest
              executing := m1.executing ++ [(j, snapOf j m1)] }
        { mgr := m2, wctl := .running j (snapOf j m1) (testOf j m1),
          statusV := s.statusV }
  else { s with mgr := m1 }

/-- A worker finishing the execution of its popped task (lines 75-99).
`ok` is whether the stub write of `task_test_run` succeeded.  In stub mode
(`test = true`) a failed write makes `task_test_run(&task)?` propagate the
error: the closure returns `Err` at once and the completion block is
skipped.  Otherwise the completion block runs; its `assert_ne!` panic is
modelled as the thread dying (`errored`). -/
def wfinish (ok : Bool) (s : Sys) : Sys :=
  match s.wctl with
  | .running i snap test =>
      if test && !ok then { s with wctl := .errored }
      else
        match completeF i snap s.mgr with
        | some m' => { s with mgr := m', wctl := .outerCheck }
        | none => { s with wctl := .errored }
  | _ => s

/-- Externally visible effects of executing one task. -/
inductive EAction where
  | createParentDirs (path : String)
  | writeFile (path : String)
  | spawnProcess (cmd : String)
deriving Repr, DecidableEq

/-- Effects of `TaskManager::task_test_run` (lines 209-216): create the
parent directories of the task's `file_name` and write one file there with
a debug dump of the task. -/
def taskTestRunActs (t : Task) : List EAction :=
  [.createParentDirs t.file_name, .writeFile t.file_name]

/-- Effects of the worker's execution branch (lines 75-77): the stub run
when `task.test` holds, and nothing at all otherwise — the worker body
contains no other execution code. -/
def workerExecActs (t : Task) : List EAction :=
  if t.test then taskTestRunActs t else []

/-- Claim C1 as stated: in every reachable state, a dequeued (executing)
task has every submitted task it declared as a dependency already
completed. -/
def claimC1stated : Prop :=
  ∀ s : MgrState, Reach s →
    ∀ t st, (t, st) ∈ s.executing →
      ∀ rt, lookupRec t s.records = some rt →
        ∀ d ∈ rt.declared, (lookupRec d s.records).isSome → d ∈ s.completed

/-- Claim C5 as stated: whenever `shutdown()` returns successfully, no
worker is still running a task. -/
def claimC5stated : Prop :=
  ∀ s : Sys, (mshutdown s).2 = true →
    ∀ i snap b, (mshutdown s).1.wctl ≠ WCtl.running i snap b

/-- Claim C6 as stated: `stop()` and `shutdown()` wake a worker blocked in
`pop` on an empty ready queue (so it is no longer suspended there after
the call). -/
def claimC6stated : Prop :=
  ∀ s : Sys, s.wctl = WCtl.popWait →
    (mstop s).1.wctl ≠ WCtl.popWait ∧ (mshutdown s).1.wctl ≠ WCtl.popWait

/-- Claim C7 as stated: when a stub task's execution fails, the worker
still performs the completion update (the task leaves the registry) and
proceeds to the top of its loop to pop its next task. -/
def claimC7stated : Prop :=
  ∀ (s : Sys) (i : Nat) (snap : List Nat), s.wctl = WCtl.running i snap true →
    (wfinish false s).wctl = WCtl.outerCheck ∧ i ∉ (wfinish false s).mgr.mapIds

/-- Claim C9 as stated: executing a non-stub task spawns an external
process and produces the two sink files `<name>_STDOUT` and `<name>_ERR`
under some output directory. -/
def claimC9stated : Prop :=
  ∀ t : Task, t.test = false →
    (∃ c, EAction.spawnProcess c ∈ workerExecActs t) ∧
    (∃ p, EAction.writeFile (p ++ t.name ++ "_STDOUT") ∈ workerExecActs t) ∧
    (∃ p, EAction.writeFile (p ++ t.name ++ "_ERR") ∈ workerExecActs t)

/-- The ids of the tasks currently being executed by workers. -/
def execIds (s : MgrState) : List Nat :=
  s.executing.map Prod.fst

/-- Inductive invariant of model A.  `mapDom`/`qDom`/`eDom`/`cDom`: every
id the scheduler tracks has a record; `snapPre`: a worker's `next`
snapshot is a prefix of the live `next` list; `edges`: the occurrences of
`j` in `d`'s `next` list are exactly the registered dependency occurrences
of `d` in `j`'s submission; `degGe`: a registry member's in-degree is at
least its number of registered dependencies not yet completed; `started`:
a task that reached the queue, a worker, or completion has all its
registered dependencies completed. -/
structure Inv (s : MgrState) : Prop where
  mapDom : ∀ i ∈ s.mapIds, (lookupRec i s.records).isSome = true
  mapNodup : s.mapIds.Nodup
  qNodup : s.queue.Nodup
  eNodup : (execIds s).Nodup
  cNodup : s.completed.Nodup
  qeDisj : ∀ i, i ∈ s.queue → i ∈ execIds s → False
  qcDisj : ∀ i, i ∈ s.queue → i ∈ s.completed → False
  ecDisj : ∀ i, i ∈ execIds s → i ∈ s.completed → False
  qDom : ∀ i ∈ s.queue, (lookupRec i s.records).isSome = true
  eDom : ∀ p ∈ s.executing, (lookupRec p.1 s.records).isSome = true
  cDom : ∀ i ∈ s.completed, (lookupRec i s.records).isSome = true
  snapPre : ∀ p ∈ s.executing, ∃ r ext, lookupRec p.1 s.records = some r ∧
      r.next = p.2 ++ ext
  regDom : ∀ j rj, lookupRec j s.records = some rj →
      ∀ d ∈ rj.registered, (lookupRec d s.records).isSome = true
  edges : ∀ d rd, lookupRec d s.records = some rd → ∀ j,
      cnt j rd.next = (match lookupRec j s.records with
        | some rj => cnt d rj.registered
        | none => 0)
  degGe : ∀ t rt, t ∈ s.mapIds → lookupRec t s.records = some rt →
      pcnt s.completed rt.registered ≤ rt.in_degree
  started : ∀ t, (t ∈ s.queue ∨ t ∈ execIds s ∨ t ∈ s.completed) →
      ∀ rt, lookupRec t s.records = some rt → ∀ d ∈ rt.registered, d ∈ s.completed

/-! Helper lemmas on the association-list heap and the counting functions. -/

theorem lookupRec_updRec_self (k : Nat) (f : TaskRec → TaskRec)
    (l : List (Nat × TaskRec)) :
    lookupRec k (updRec k f l) = (lookupRec k l).map f := by
  induction l with
  | nil => rfl
  | cons p rest ih =>
      obtain ⟨i, r⟩ := p
      by_cases h : k = i
      · simp [updRec, lookupRec, h]
      · simp [updRec, lookupRec, h, ih]

theorem lookupRec_updRec_ne (k j : Nat) (hne : j ≠ k) (f : TaskRec → TaskRec)
    (l : List (Nat × TaskRec)) :
    lookupRec j (updRec k f l) = lookupRec j l := by
  induction l with
  | nil => rfl
  | cons p rest ih =>
      obtain ⟨i, r⟩ := p
      by_cases h : k = i
      · subst h
        simp [updRec, lookupRec, hne, ih]
      · by_cases h2 : j = i
        · simp [updRec, lookupRec, h, h2]
        · simp [updRec, lookupRec, h, h2, ih]

theorem cnt_append (a : Nat) (l1 l2 : List Nat) :
    cnt a (l1 ++ l2) = cnt a l1 + cnt a l2 := by
  induction l1 with
  | nil => simp [cnt]
  | cons b l ih => simp [cnt, ih]; omega

theorem cnt_eq_zero_iff (a : Nat) (l : List Nat) : cnt a l = 0 ↔ a ∉ l := by
  induction l with
  | nil => simp [cnt]
  | cons b l ih =>
      by_cases h : a = b
      · subst h; simp [cnt]
      · simp [cnt, h, ih]

theorem cnt_cons_self (a : Nat) (l : List Nat) : cnt a (a :: l) = cnt a l + 1 := by
  simp [cnt]; omega

theorem cnt_cons_ne (a b : Nat) (h : a ≠ b) (l : List Nat) :
    cnt a (b :: l) = cnt a l := by
  simp [cnt, h]

theorem cnt_replicate_self (a : Nat) (n : Nat) : cnt a (List.replicate n a) = n := by
  induction n with
  | zero => rfl
  | succ m ih => simp [List.replicate, cnt, ih]; omega

theorem cnt_replicate_ne (a b : Nat) (h : a ≠ b) (n : Nat) :
    cnt a (List.replicate n b) = 0 := by
  induction n with
  | zero => rfl
  | succ m ih => simp [List.replicate, cnt, h, ih]

theorem pcnt_append_one (completed reg : List Nat) (i : Nat) (h : i ∉ completed) :
    pcnt (completed ++ [i]) reg + cnt i reg = pcnt completed reg := by
  induction reg with
  | nil => simp [pcnt, cnt]
  | cons d l ih =>
      by_cases hdi : i = d
      · subst hdi
        simp [pcnt, cnt, h, List.mem_append]
        omega
      · by_cases hdc : d ∈ completed
        · simp [pcnt, cnt, hdc, List.mem_append, Ne.symm hdi, hdi]
          omega
        · have hni : d ∉ completed ++ [i] := by
            simp only [List.mem_append, List.mem_singleton]
            rintro (h1 | h1)
            · exact hdc h1
            · exact hdi h1.symm
          simp [pcnt, cnt, hdc, hni, hdi]
          omega

theorem cnt_le_pcnt (completed reg : List Nat) (i : Nat) (h : i ∉ completed) :
    cnt i reg ≤ pcnt completed reg := by
  induction reg with
  | nil => simp [pcnt, cnt]
  | cons d l ih =>
      by_cases hdi : i = d
      · subst hdi
        simp [pcnt, cnt, h]
        omega
      · by_cases hdc : d ∈ completed
        · simp [pcnt, cnt, hdi, hdc]
          omega
        · simp [pcnt, cnt, hdi, hdc]
          omega

theorem pcnt_eq_zero (completed reg : List Nat) (h : pcnt completed reg = 0) :
    ∀ d ∈ reg, d ∈ completed := by
  induction reg with
  | nil => intro d hd; cases hd
  | cons e l ih =>
      intro d hd
      by_cases hec : e ∈ completed
      · simp [pcnt, hec] at h
        rcases List.mem_cons.mp hd with h1 | h1
        · subst h1; exact hec
        · exact ih h d h1
      · simp [pcnt, hec] at h

theorem pcnt_le_length (completed reg : List Nat) : pcnt completed reg ≤ reg.length := by
  induction reg with
  | nil => simp [pcnt]
  | cons d l ih =>
      by_cases hdc : d ∈ completed
      · simp [pcnt, hdc]; omega
      · simp [pcnt, hdc]; omega

/-! Characterisation of the `is_ready` registration loop. -/

theorem regDeps_reg (tid : Nat) (mapIds ds : List Nat) (recs : List (Nat × TaskRec)) :
    (regDeps tid mapIds ds recs).2.2 = ds.filter (fun d => decide (d ∈ mapIds)) := by
  induction ds generalizing recs with
  | nil => rfl
  | cons d l ih =>
      by_cases h : d ∈ mapIds
      · simp [regDeps, h, List.filter_cons, ih]
      · simp [regDeps, h, List.filter_cons, ih]

theorem regDeps_k (tid : Nat) (mapIds ds : List Nat) (recs : List (Nat × TaskRec)) :
    (regDeps tid mapIds ds recs).2.1 = (regDeps tid mapIds ds recs).2.2.length := by
  induction ds generalizing recs with
  | nil => rfl
  | cons d l ih =>
      by_cases h : d ∈ mapIds
      · simp [regDeps, h, ih]
      · simp [regDeps, h, ih]

theorem regDeps_lookup (tid : Nat) (mapIds ds : List Nat) (recs : List (Nat × TaskRec))
    (j : Nat) :
    lookupRec j (regDeps tid mapIds ds recs).1 =
      (lookupRec j recs).map (fun r =>
        { r with next := r.next ++
            List.replicate (cnt j (regDeps tid mapIds ds recs).2.2) tid }) := by
  induction ds generalizing recs with
  | nil =>
      cases h : lookupRec j recs <;> simp [regDeps, h, cnt]
  | cons d l ih =>
      by_cases hd : d ∈ mapIds
      · by_cases hjd : j = d
        · subst hjd
          have hup := lookupRec_updRec_self j
            (fun r => { r with next := r.next ++ [tid] }) recs
          cases h : lookupRec j recs with
          | none =>
              simp [regDeps, hd, ih, hup, h, cnt]
          | some r =>
              simp [regDeps, hd, ih, hup, h, cnt, cnt_cons_self]
              simp [List.replicate_succ]
        · have hup := lookupRec_updRec_ne d j hjd
            (fun r => { r with next := r.next ++ [tid] }) recs
          simp [regDeps, hd, ih, hup, cnt, hjd]
      · simp [regDeps, hd, ih]

theorem cnt_le_cons (a b : Nat) (l : List Nat) : cnt a l ≤ cnt a (b :: l) := by
  by_cases h : a = b
  · subst h; rw [cnt_cons_self]; omega
  · rw [cnt_cons_ne a b h]

/-- Batch characterisation of the dependent-release loop: when no decrement
can underflow, the loop succeeds; each registry member's in-degree drops by
its number of occurrences in the snapshot, records outside the registry are
untouched, and the released ids are exactly the registry members whose
in-degree equalled their (positive) occurrence count. -/
theorem completeLoop_spec (mapIds : List Nat) (snap : List Nat) :
    ∀ (recs : List (Nat × TaskRec)) (ready : List Nat),
      (∀ n r, n ∈ mapIds → lookupRec n recs = some r → cnt n snap ≤ r.in_degree) →
      ∃ recs' newReady,
        completeLoop mapIds recs ready snap = some (recs', ready ++ newReady) ∧
        (∀ j, lookupRec j recs' = (lookupRec j recs).map (fun r =>
            { r with in_degree :=
                r.in_degree - (if j ∈ mapIds then cnt j snap else 0) })) ∧
        (∀ j, j ∈ newReady ↔ j ∈ mapIds ∧ ∃ r, lookupRec j recs = some r ∧
            0 < cnt j snap ∧ r.in_degree = cnt j snap) ∧
        newReady.Nodup := by
  induction snap with
  | nil =>
      intro recs ready _
      refine ⟨recs, [], by simp [completeLoop], ?_, by simp [cnt], by simp⟩
      intro j
      cases h : lookupRec j recs <;> simp [h, cnt]
  | cons n ns ih =>
      intro recs ready hok
      by_cases hn : n ∈ mapIds
      · cases hr : lookupRec n recs with
        | none =>
            have hok' : ∀ m r, m ∈ mapIds → lookupRec m recs = some r →
                cnt m ns ≤ r.in_degree := by
              intro m r hm hl
              exact le_trans (cnt_le_cons m n ns) (hok m r hm hl)
            obtain ⟨recs', newR, heq, hform, hmem, hnd⟩ := ih recs ready hok'
            refine ⟨recs', newR, by simp [completeLoop, hn, hr, heq], ?_, ?_, hnd⟩
            · intro j
              by_cases hj : j = n
              · subst hj
                rw [hform j, hr]
                simp [hr]
              · rw [hform j, cnt_cons_ne j n hj]
            · intro j
              by_cases hj : j = n
              · subst hj
                simp [hmem j, hr]
              · rw [hmem j, cnt_cons_ne j n hj]
        | some r =>
            have hler := hok n r hn hr
            have hcnt1 : cnt n (n :: ns) = cnt n ns + 1 := cnt_cons_self n ns
            have hr0 : ¬ r.in_degree = 0 := by omega
            have hup := lookupRec_updRec_self n
              (fun q => { q with in_degree := q.in_degree - 1 }) recs
            rw [hr] at hup
            by_cases hd1 : r.in_degree - 1 = 0
            · have hin1 : r.in_degree = 1 := by omega
              have hcnt0 : cnt n ns = 0 := by omega
              have hok1 : ∀ m q, m ∈ mapIds →
                  lookupRec m (updRec n
                    (fun q => { q with in_degree := q.in_degree - 1 }) recs) = some q →
                  cnt m ns ≤ q.in_degree := by
                intro m q hm hl
                by_cases hmn : m = n
                · subst hmn
                  rw [hup] at hl
                  cases hl
                  simp [hcnt0]
                · rw [lookupRec_updRec_ne n m hmn _ recs] at hl
                  exact le_trans (cnt_le_cons m n ns) (hok m q hm hl)
              obtain ⟨recs', newR, heq, hform, hmem, hnd⟩ :=
                ih (updRec n (fun q => { q with in_degree := q.in_degree - 1 }) recs)
                  (ready ++ [n]) hok1
              refine ⟨recs', n :: newR, ?_, ?_, ?_, ?_⟩
              · rw [show ready ++ n :: newR = (ready ++ [n]) ++ newR by simp]
                simp [completeLoop, hn, hr, hr0, hd1, heq]
              · intro j
                by_cases hj : j = n
                · subst hj
                  rw [hform j, hup]
                  simp [hn, hr, hcnt1, hcnt0, hin1]
                · rw [hform j, lookupRec_updRec_ne n j hj _ recs,
                    cnt_cons_ne j n hj]
              · intro j
                by_cases hj : j = n
                · subst hj
                  simp [hn, hr, hcnt1, hcnt0, hin1]
                · simp only [List.mem_cons, hj, false_or]
                  rw [hmem j, lookupRec_updRec_ne n j hj _ recs,
                    cnt_cons_ne j n hj]
              · refine List.nodup_cons.mpr ⟨?_, hnd⟩
                intro hcon
                rcases (hmem n).mp hcon with ⟨-, q, -, hpos, -⟩
                omega
            · have hok1 : ∀ m q, m ∈ mapIds →
                  lookupRec m (updRec n
                    (fun q => { q with in_degree := q.in_degree - 1 }) recs) = some q →
                  cnt m ns ≤ q.in_degree := by
                intro m q hm hl
                by_cases hmn : m = n
                · subst hmn
                  rw [hup] at hl
                  cases hl
                  simp
                  omega
                · rw [lookupRec_updRec_ne n m hmn _ recs] at hl
                  exact le_trans (cnt_le_cons m n ns) (hok m q hm hl)
              obtain ⟨recs', newR, heq, hform, hmem, hnd⟩ :=
                ih (updRec n (fun q => { q with in_degree := q.in_degree - 1 }) recs)
                  ready hok1
              refine ⟨recs', newR, ?_, ?_, ?_, hnd⟩
              · simp [completeLoop, hn, hr, hr0, hd1, heq]
              · intro j
                by_cases hj : j = n
                · subst hj
                  rw [hform j, hup]
                  simp [hn, hr, hcnt1]
                  omega
                · rw [hform j, lookupRec_updRec_ne n j hj _ recs,
                    cnt_cons_ne j n hj]
              · intro j
                by_cases hj : j = n
                · subst hj
                  rw [hmem j]
                  constructor
                  · rintro ⟨-, q, hq, hpos, hdeg⟩
                    rw [hup] at hq
                    cases hq
                    simp only at hdeg
                    refine ⟨hn, r, hr, ?_, ?_⟩ <;> rw [hcnt1] <;> omega
                  · rintro ⟨-, q, hq, hpos, hdeg⟩
                    rw [hr] at hq
                    cases hq
                    rw [hcnt1] at hdeg
                    refine ⟨hn, _, hup, by omega, ?_⟩
                    show r.in_degree - 1 = cnt j ns
                    omega
                · rw [hmem j, lookupRec_updRec_ne n j hj _ recs,
                    cnt_cons_ne j n hj]
      · have hok' : ∀ m r, m ∈ mapIds → lookupRec m recs = some r →
            cnt m ns ≤ r.in_degree := by
          intro m r hm hl
          exact le_trans (cnt_le_cons m n ns) (hok m r hm hl)
        obtain ⟨recs', newR, heq, hform, hmem, hnd⟩ := ih recs ready hok'
        refine ⟨recs', newR, by simp [completeLoop, hn, heq], ?_, ?_, hnd⟩
        · intro j
          by_cases hj : j = n
          · subst hj
            rw [hform j]
            simp [hn]
          · rw [hform j, cnt_cons_ne j n hj]
        · intro j
          by_cases hj : j = n
          · subst hj
            simp [hmem j, hn]
          · rw [hmem j, cnt_cons_ne j n hj]

/-- Characterisation of the whole completion block for a popped task `i`
with snapshot `snap`, assuming no decrement can underflow. -/
theorem completeF_spec (i : Nat) (snap : List Nat) (s : MgrState)
    (hok : ∀ n r, n ∈ s.mapIds → n ≠ i → lookupRec n s.records = some r →
      cnt n snap ≤ r.in_degree) :
    ∃ s' ready,
      completeF i snap s = some s' ∧
      s'.status = s.status ∧
      s'.queue = s.queue ++ ready ∧
      s'.completed = s.completed ++ [i] ∧
      s'.executing = s.executing.filter (fun p => decide (p.1 ≠ i)) ∧
      s'.mapIds = (s.mapIds.filter (fun x => decide (x ≠ i))).filter
        (fun x => decide (x ∉ ready)) ∧
      (∀ n, n ∈ ready ↔ n ∈ s.mapIds ∧ n ≠ i ∧ ∃ r, lookupRec n s.records = some r ∧
          0 < cnt n snap ∧ r.in_degree = cnt n snap) ∧
      ready.Nodup ∧
      (∀ n, n ∈ s'.mapIds ↔ n ∈ s.mapIds ∧ n ≠ i ∧ n ∉ ready) ∧
      (∀ j, lookupRec j s'.records = (lookupRec j s.records).map (fun r =>
          { r with in_degree :=
              r.in_degree - (if j ∈ s.mapIds ∧ j ≠ i then cnt j snap else 0) })) := by
  have hm1 : ∀ n, n ∈ s.mapIds.filter (fun x => decide (x ≠ i)) ↔
      (n ∈ s.mapIds ∧ n ≠ i) := by
    intro n
    simp [List.mem_filter]
  have hok1 : ∀ n r, n ∈ s.mapIds.filter (fun x => decide (x ≠ i)) →
      lookupRec n s.records = some r → cnt n snap ≤ r.in_degree := by
    intro n r hm hl
    obtain ⟨h1, h2⟩ := (hm1 n).mp hm
    exact hok n r h1 h2 hl
  obtain ⟨recs', newR, heq, hform, hmem, hnd⟩ :=
    completeLoop_spec (s.mapIds.filter (fun x => decide (x ≠ i))) snap s.records [] hok1
  simp only [List.nil_append] at heq
  have hcf : completeF i snap s = some
      { s with
          records := recs'
          mapIds := (s.mapIds.filter (fun x => decide (x ≠ i))).filter
            (fun x => decide (x ∉ newR))
          queue := s.queue ++ newR
          executing := s.executing.filter (fun p => decide (p.1 ≠ i))
          completed := s.completed ++ [i] } := by
    simp only [completeF, heq]
  refine ⟨_, newR, hcf, rfl, rfl, rfl, rfl, rfl, ?_, hnd, ?_, ?_⟩
  · intro n
    rw [hmem n, hm1 n]
    tauto
  · intro n
    simp only [List.mem_filter, decide_eq_true_eq]
    tauto
  · intro j
    rw [hform j]
    by_cases hj : j ∈ s.mapIds ∧ j ≠ i
    · rw [if_pos ((hm1 j).mpr hj), if_pos hj]
    · rw [if_neg (fun hc => hj ((hm1 j).mp hc)), if_neg hj]

/-- Characterisation of a non-`Shutdown` submission: the registered
dependency occurrences are those declared and in the registry; the new
task's record carries the matching in-degree; every dependency's `next`
list receives one occurrence of the new id per registered occurrence;
other records are untouched; the task goes onto the queue exactly when
nothing was registered, and into the registry always. -/
theorem submitR_spec (t : Task) (s : MgrState) (hst : s.status ≠ .Shutdown) :
    (submitR t s).2 = true ∧
    (submitR t s).1.status = s.status ∧
    (submitR t s).1.executing = s.executing ∧
    (submitR t s).1.completed = s.completed ∧
    (submitR t s).1.mapIds = t.id :: s.mapIds ∧
    (lookupRec t.id (submitR t s).1.records = some
      { in_degree := t.in_degree + (t.depend.filter (fun d => decide (d ∈ s.mapIds))).length,
        next := t.next, test := t.test,
        registered := t.depend.filter (fun d => decide (d ∈ s.mapIds)),
        declared := t.depend }) ∧
    (∀ j, j ≠ t.id → lookupRec j (submitR t s).1.records =
      (lookupRec j s.records).map (fun r =>
        { r with next := r.next ++
            List.replicate (cnt j (t.depend.filter (fun d => decide (d ∈ s.mapIds)))) t.id })) ∧
    (submitR t s).1.queue =
      (if (t.depend.filter (fun d => decide (d ∈ s.mapIds))).length = 0
        then s.queue ++ [t.id] else s.queue) := by
  have hreg := regDeps_reg t.id s.mapIds t.depend s.records
  have hk := regDeps_k t.id s.mapIds t.depend s.records
  have hlk := regDeps_lookup t.id s.mapIds t.depend s.records
  have hready : (t.depend.isEmpty || (regDeps t.id s.mapIds t.depend s.records).2.1 == 0) =
      ((t.depend.filter (fun d => decide (d ∈ s.mapIds))).length == 0) := by
    rw [hk, hreg]
    cases ht : t.depend with
    | nil => simp
    | cons a l => simp [List.isEmpty]
  have hsub : submitR t s =
      ({ s with
          records := (t.id,
            { in_degree := t.in_degree + (regDeps t.id s.mapIds t.depend s.records).2.1,
              next := t.next, test := t.test,
              registered := (regDeps t.id s.mapIds t.depend s.records).2.2,
              declared := t.depend }) :: (regDeps t.id s.mapIds t.depend s.records).1,
          mapIds := t.id :: s.mapIds,
          queue := if (t.depend.isEmpty ||
              (regDeps t.id s.mapIds t.depend s.records).2.1 == 0)
            then s.queue ++ [t.id] else s.queue }, true) := by
    unfold submitR
    cases hs : s.status with
    | Running => rfl
    | Stopped => rfl
    | Shutdown => exact absurd hs hst
  rw [hsub]
  refine ⟨rfl, rfl, rfl, rfl, rfl, ?_, ?_, ?_⟩
  · simp [lookupRec, hk, hreg]
  · intro j hj
    simp only [lookupRec, if_neg hj]
    rw [hlk j, hreg]
  · simp only [hready]
    by_cases h0 : (t.depend.filter (fun d => decide (d ∈ s.mapIds))).length = 0
    · simp [h0]
    · simp [h0]

/-! The inductive invariant is established along every `Reach` derivation. -/

theorem cnt_pos_mem (a : Nat) (l : List Nat) (h : 0 < cnt a l) : a ∈ l := by
  by_contra hc
  have := (cnt_eq_zero_iff a l).mpr hc
  omega

theorem mem_execIds {s : MgrState} {i : Nat} {snap : List Nat}
    (hex : (i, snap) ∈ s.executing) : i ∈ execIds s := by
  simp only [execIds, List.mem_map]
  exact ⟨(i, snap), hex, rfl⟩

theorem inv_init : Inv initState := by
  constructor <;> intros <;> simp_all [initState, execIds, lookupRec]

theorem inv_lifecycle (s : MgrState) (hin : Inv s) (st : ManagerStatus) :
    Inv { s with status := st } :=
  ⟨hin.mapDom, hin.mapNodup, hin.qNodup, hin.eNodup, hin.cNodup, hin.qeDisj,
   hin.qcDisj, hin.ecDisj, hin.qDom, hin.eDom, hin.cDom, hin.snapPre,
   hin.regDom, hin.edges, hin.degGe, hin.started⟩

theorem inv_snap_bound (s : MgrState) (hin : Inv s) (i : Nat) (snap : List Nat)
    (hex : (i, snap) ∈ s.executing) :
    ∀ n rn, lookupRec n s.records = some rn → cnt n snap ≤ cnt i rn.registered := by
  obtain ⟨ri, ext, hri, hrin⟩ := hin.snapPre (i, snap) hex
  intro n rn hn
  have he := hin.edges i ri hri n
  simp only [hn] at he
  rw [hrin, cnt_append] at he
  dsimp only at he
  omega

theorem inv_hok (s : MgrState) (hin : Inv s) (i : Nat) (snap : List Nat)
    (hex : (i, snap) ∈ s.executing) :
    ∀ n r, n ∈ s.mapIds → n ≠ i → lookupRec n s.records = some r →
      cnt n snap ≤ r.in_degree := by
  intro n r hn _ hl
  have h1 := inv_snap_bound s hin i snap hex n r hl
  have hiC : i ∉ s.completed := fun hc => hin.ecDisj i (mem_execIds hex) hc
  have h2 := cnt_le_pcnt s.completed r.registered i hiC
  have h3 := hin.degGe n r hn hl
  omega

theorem inv_pop (s s' : MgrState) (hin : Inv s) (hp : popF s = some s') : Inv s' := by
  unfold popF at hp
  cases hq : s.queue with
  | nil => rw [hq] at hp; cases hp
  | cons i rest =>
      rw [hq] at hp
      injection hp with hp
      subst hp
      have hiq : i ∈ s.queue := by rw [hq]; exact List.mem_cons_self i rest
      have hqn : (i :: rest).Nodup := hq ▸ hin.qNodup
      have hirest : i ∉ rest := (List.nodup_cons.mp hqn).1
      have hie : i ∉ execIds s := fun h => hin.qeDisj i hiq h
      have hic : i ∉ s.completed := fun h => hin.qcDisj i hiq h
      have hrestq : ∀ j, j ∈ rest → j ∈ s.queue := by
        intro j hj; rw [hq]; exact List.mem_cons_of_mem i hj
      have hex' : execIds
          { s with
              queue := rest
              executing := s.executing ++ [(i, snapOf i s)] } = execIds s ++ [i] := by
        simp [execIds]
      refine ⟨hin.mapDom, hin.mapNodup, (List.nodup_cons.mp hqn).2, ?_, hin.cNodup,
        ?_, ?_, ?_, ?_, ?_, hin.cDom, ?_, hin.regDom, hin.edges, hin.degGe, ?_⟩
      · rw [hex']
        rw [List.nodup_append]
        exact ⟨hin.eNodup, List.nodup_singleton i,
          fun a ha hb => hie ((List.mem_singleton.mp hb) ▸ ha)⟩
      · intro j hjr hje
        rw [hex'] at hje
        rcases List.mem_append.mp hje with h1 | h1
        · exact hin.qeDisj j (hrestq j hjr) h1
        · exact hirest ((List.mem_singleton.mp h1) ▸ hjr)
      · intro j hjr hjc
        exact hin.qcDisj j (hrestq j hjr) hjc
      · intro j hje hjc
        rw [hex'] at hje
        rcases List.mem_append.mp hje with h1 | h1
        · exact hin.ecDisj j h1 hjc
        · exact hic ((List.mem_singleton.mp h1) ▸ hjc)
      · intro j hjr
        exact hin.qDom j (hrestq j hjr)
      · intro p hp
        rcases List.mem_append.mp hp with h1 | h1
        · exact hin.eDom p h1
        · rw [List.mem_singleton.mp h1]
          exact hin.qDom i hiq
      · intro p hp
        rcases List.mem_append.mp hp with h1 | h1
        · exact hin.snapPre p h1
        · rw [List.mem_singleton.mp h1]
          have hs := hin.qDom i hiq
          cases hr : lookupRec i s.records with
          | none => rw [hr] at hs; cases hs
          | some r =>
              refine ⟨r, [], rfl, ?_⟩
              simp [snapOf, hr]
      · intro t ht rt hrt d hd
        refine hin.started t ?_ rt hrt d hd
        rcases ht with h1 | h1 | h1
        · exact Or.inl (hrestq t h1)
        · rw [hex'] at h1
          rcases List.mem_append.mp h1 with h2 | h2
          · exact Or.inr (Or.inl h2)
          · exact Or.inl ((List.mem_singleton.mp h2) ▸ hiq)
        · exact Or.inr (Or.inr h1)

theorem inv_eDomIds (s : MgrState) (hin : Inv s) :
    ∀ j ∈ execIds s, (lookupRec j s.records).isSome = true := by
  intro j hj
  simp only [execIds, List.mem_map] at hj
  obtain ⟨⟨a, b⟩, hp, hab⟩ := hj
  subst hab
  exact hin.eDom _ hp

theorem inv_submit (s : MgrState) (t : Task) (hin : Inv s)
    (hf : lookupRec t.id s.records = none) (h0 : t.in_degree = 0)
    (hnx : t.next = []) : Inv (submitR t s).1 := by
  by_cases hst : s.status = .Shutdown
  · have : submitR t s = (s, false) := by unfold submitR; rw [hst]
    rw [this]
    exact hin
  · obtain ⟨-, hstat, hexec, hcomp, hmap, hself, hnew, hqueue⟩ := submitR_spec t s hst
    rw [h0, hnx] at hself
    simp only [Nat.zero_add] at hself
    have htm : t.id ∉ s.mapIds := fun h => by
      have := hin.mapDom t.id h; rw [hf] at this; cases this
    have htq : t.id ∉ s.queue := fun h => by
      have := hin.qDom t.id h; rw [hf] at this; cases this
    have hte : t.id ∉ execIds s := fun h => by
      have := inv_eDomIds s hin t.id h; rw [hf] at this; cases this
    have htc : t.id ∉ s.completed := fun h => by
      have := hin.cDom t.id h; rw [hf] at this; cases this
    have hregsub : ∀ d ∈ t.depend.filter (fun d => decide (d ∈ s.mapIds)),
        d ∈ s.mapIds := by
      intro d hd
      have := (List.mem_filter.mp hd).2
      simpa using this
    set reg : List Nat := t.depend.filter (fun d => decide (d ∈ s.mapIds)) with hregdef
    have htreg : t.id ∉ reg := fun h => htm (hregsub t.id h)
    have hpres : ∀ j, (lookupRec j s.records).isSome = true →
        (lookupRec j (submitR t s).1.records).isSome = true := by
      intro j hj
      by_cases hjt : j = t.id
      · subst hjt; rw [hf] at hj; cases hj
      · rw [hnew j hjt]
        cases h : lookupRec j s.records with
        | none => rw [h] at hj; cases hj
        | some r => simp
    have htrans : ∀ j rj', j ≠ t.id → lookupRec j (submitR t s).1.records = some rj' →
        ∃ rj, lookupRec j s.records = some rj ∧ rj'.in_degree = rj.in_degree ∧
          rj'.test = rj.test ∧ rj'.registered = rj.registered ∧
          rj'.declared = rj.declared ∧
          rj'.next = rj.next ++ List.replicate (cnt j reg) t.id := by
      intro j rj' hjt hj
      rw [hnew j hjt] at hj
      cases h : lookupRec j s.records with
      | none => rw [h] at hj; cases hj
      | some r =>
          rw [h] at hj
          injection hj with hj
          exact ⟨r, rfl, by rw [← hj], by rw [← hj], by rw [← hj], by rw [← hj],
            by rw [← hj]⟩
    have hexecIds : execIds (submitR t s).1 = execIds s := by
      simp [execIds, hexec]
    have hqmem : ∀ j, j ∈ (submitR t s).1.queue →
        j ∈ s.queue ∨ (j = t.id ∧ reg.length = 0) := by
      intro j hj
      rw [hqueue] at hj
      by_cases hr0 : reg.length = 0
      · rw [if_pos hr0] at hj
        rcases List.mem_append.mp hj with h1 | h1
        · exact Or.inl h1
        · exact Or.inr ⟨List.mem_singleton.mp h1, hr0⟩
      · rw [if_neg hr0] at hj
        exact Or.inl hj
    refine ⟨?_, ?_, ?_, ?_, ?_, ?_, ?_, ?_, ?_, ?_, ?_, ?_, ?_, ?_, ?_, ?_⟩
    · rw [hmap]
      intro j hj
      rcases List.mem_cons.mp hj with h1 | h1
      · subst h1; rw [hself]; rfl
      · exact hpres j (hin.mapDom j h1)
    · rw [hmap]
      exact List.nodup_cons.mpr ⟨htm, hin.mapNodup⟩
    · rw [hqueue]
      by_cases hr0 : reg.length = 0
      · rw [if_pos hr0, List.nodup_append]
        exact ⟨hin.qNodup, List.nodup_singleton _,
          fun a ha hb => htq ((List.mem_singleton.mp hb) ▸ ha)⟩
      · rw [if_neg hr0]
        exact hin.qNodup
    · rw [hexecIds]; exact hin.eNodup
    · rw [hcomp]; exact hin.cNodup
    · intro j hjq hje
      rw [hexecIds] at hje
      rcases hqmem j hjq with h1 | ⟨h1, -⟩
      · exact hin.qeDisj j h1 hje
      · exact hte (h1 ▸ hje)
    · intro j hjq hjc
      rw [hcomp] at hjc
      rcases hqmem j hjq with h1 | ⟨h1, -⟩
      · exact hin.qcDisj j h1 hjc
      · exact htc (h1 ▸ hjc)
    · intro j hje hjc
      rw [hexecIds] at hje
      rw [hcomp] at hjc
      exact hin.ecDisj j hje hjc
    · intro j hjq
      rcases hqmem j hjq with h1 | ⟨h1, -⟩
      · exact hpres j (hin.qDom j h1)
      · subst h1; rw [hself]; rfl
    · intro p hp
      rw [hexec] at hp
      exact hpres p.1 (hin.eDom p hp)
    · intro j hjc
      rw [hcomp] at hjc
      exact hpres j (hin.cDom j hjc)
    · intro p hp
      rw [hexec] at hp
      obtain ⟨r, ext, hrl, hrn⟩ := hin.snapPre p hp
      have hp1 : p.1 ≠ t.id := by
        intro he
        rw [he, hf] at hrl
        cases hrl
      refine ⟨{ r with next := r.next ++ List.replicate (cnt p.1 reg) t.id },
        ext ++ List.replicate (cnt p.1 reg) t.id, ?_, ?_⟩
      · rw [hnew p.1 hp1, hrl]; rfl
      · simp only [hrn, List.append_assoc]
    · intro j rj hj d hd
      by_cases hjt : j = t.id
      · subst hjt
        rw [hself] at hj
        injection hj with hj
        rw [← hj] at hd
        exact hpres d (hin.mapDom d (hregsub d hd))
      · obtain ⟨rj0, hj0, -, -, hreg0, -, -⟩ := htrans j rj hjt hj
        rw [hreg0] at hd
        exact hpres d (hin.regDom j rj0 hj0 d hd)
    · intro d rd hd j
      by_cases hdt : d = t.id
      · subst hdt
        rw [hself] at hd
        injection hd with hd
        rw [← hd]
        simp only []
        rw [show cnt j ([] : List Nat) = 0 from rfl]
        by_cases hjt : j = t.id
        · subst hjt
          rw [hself]
          simp only []
          exact ((cnt_eq_zero_iff t.id reg).mpr htreg).symm
        · cases hjs : lookupRec j s.records with
          | none =>
              have hn2 : lookupRec j (submitR t s).1.records = none := by
                rw [hnew j hjt, hjs]; rfl
              simp only [hn2]
          | some rj =>
              have hj' : lookupRec j (submitR t s).1.records =
                  some { rj with next := rj.next ++ List.replicate (cnt j reg) t.id } := by
                rw [hnew j hjt, hjs]; rfl
              simp only [hj']
              have : t.id ∉ rj.registered := by
                intro hmem
                have := hin.regDom j rj hjs t.id hmem
                rw [hf] at this
                cases this
              exact ((cnt_eq_zero_iff t.id rj.registered).mpr this).symm
      · obtain ⟨rd0, hd0, -, -, -, -, hnext0⟩ := htrans d rd hdt hd
        rw [hnext0, cnt_append]
        have hedge := hin.edges d rd0 hd0 j
        by_cases hjt : j = t.id
        · subst hjt
          rw [hf] at hedge
          simp only [] at hedge
          rw [hedge, cnt_replicate_self, hself]
          simp
        · rw [cnt_replicate_ne j t.id hjt, Nat.add_zero, hedge]
          cases hjs : lookupRec j s.records with
          | none =>
              have hn2 : lookupRec j (submitR t s).1.records = none := by
                rw [hnew j hjt, hjs]; rfl
              simp only [hjs, hn2]
          | some rj =>
              have hj' : lookupRec j (submitR t s).1.records =
                  some { rj with next := rj.next ++ List.replicate (cnt j reg) t.id } := by
                rw [hnew j hjt, hjs]; rfl
              simp only [hjs, hj']
    · intro u ru hu hru
      rw [hmap] at hu
      rw [hcomp]
      rcases List.mem_cons.mp hu with h1 | h1
      · subst h1
        rw [hself] at hru
        injection hru with hru
        rw [← hru]
        simp only []
        exact pcnt_le_length s.completed reg
      · have hut : u ≠ t.id := fun he => htm (he ▸ h1)
        obtain ⟨ru0, hu0, hdeg0, -, hreg0, -, -⟩ := htrans u ru hut hru
        rw [hdeg0, hreg0]
        exact hin.degGe u ru0 h1 hu0
    · intro u hu ru hru d hd
      rw [hcomp]
      rcases hu with h1 | h1 | h1
      · rcases hqmem u h1 with h2 | ⟨h2, hz⟩
        · have hut : u ≠ t.id := fun he => htq (he ▸ h2)
          obtain ⟨ru0, hu0, -, -, hreg0, -, -⟩ := htrans u ru hut hru
          rw [hreg0] at hd
          exact hin.started u (Or.inl h2) ru0 hu0 d hd
        · subst h2
          rw [hself] at hru
          injection hru with hru
          rw [← hru] at hd
          simp only [] at hd
          rw [List.length_eq_zero.mp hz] at hd
          cases hd
      · rw [hexecIds] at h1
        have hut : u ≠ t.id := fun he => hte (he ▸ h1)
        obtain ⟨ru0, hu0, -, -, hreg0, -, -⟩ := htrans u ru hut hru
        rw [hreg0] at hd
        exact hin.started u (Or.inr (Or.inl h1)) ru0 hu0 d hd
      · rw [hcomp] at h1
        have hut : u ≠ t.id := fun he => htc (he ▸ h1)
        obtain ⟨ru0, hu0, -, -, hreg0, -, -⟩ := htrans u ru hut hru
        rw [hreg0] at hd
        exact hin.started u (Or.inr (Or.inr h1)) ru0 hu0 d hd

theorem inv_complete (s s' : MgrState) (i : Nat) (snap : List Nat) (hin : Inv s)
    (hex : (i, snap) ∈ s.executing) (hc : completeF i snap s = some s') : Inv s' := by
  have hok := inv_hok s hin i snap hex
  obtain ⟨s'', ready, hcf, hstat, hq, hcomp, hexe, hmfeq, hrdy, hrnd, hmap, hform⟩ :=
    completeF_spec i snap s hok
  rw [hc] at hcf
  injection hcf with hcf
  subst hcf
  have hiE : i ∈ execIds s := mem_execIds hex
  have hiC : i ∉ s.completed := fun h => hin.ecDisj i hiE h
  have key := inv_snap_bound s hin i snap hex
  have hpres : ∀ j, (lookupRec j s.records).isSome = true →
      (lookupRec j s'.records).isSome = true := by
    intro j hj
    rw [hform j]
    cases h : lookupRec j s.records with
    | none => rw [h] at hj; cases hj
    | some r => simp
  have hnone : ∀ j, lookupRec j s.records = none → lookupRec j s'.records = none := by
    intro j hj
    rw [hform j, hj]
    rfl
  have htrans : ∀ j rj', lookupRec j s'.records = some rj' →
      ∃ rj, lookupRec j s.records = some rj ∧ rj'.next = rj.next ∧
        rj'.registered = rj.registered ∧ rj'.declared = rj.declared ∧
        rj'.test = rj.test ∧
        rj'.in_degree = rj.in_degree -
          (if j ∈ s.mapIds ∧ j ≠ i then cnt j snap else 0) := by
    intro j rj' hj
    rw [hform j] at hj
    cases h : lookupRec j s.records with
    | none => rw [h] at hj; cases hj
    | some r =>
        rw [h] at hj
        injection hj with hj
        exact ⟨r, rfl, by rw [← hj], by rw [← hj], by rw [← hj], by rw [← hj],
          by rw [← hj]⟩
  have hreadyNot : ∀ n ∈ ready,
      ¬(n ∈ s.queue ∨ n ∈ execIds s ∨ n ∈ s.completed) := by
    intro n hn hcon
    obtain ⟨hnm, hni, r, hr, hpos, hdeg⟩ := (hrdy n).mp hn
    have hik : cnt n snap ≤ cnt i r.registered := key n r hr
    have himem : i ∈ r.registered := cnt_pos_mem i r.registered (by omega)
    have := hin.started n hcon r hr i himem
    exact hiC this
  have hexecSub : ∀ p ∈ s'.executing, p ∈ s.executing ∧ p.1 ≠ i := by
    intro p hp
    rw [hexe] at hp
    have := List.mem_filter.mp hp
    exact ⟨this.1, by simpa using this.2⟩
  have hexecIdsSub : ∀ j ∈ execIds s', j ∈ execIds s ∧ j ≠ i := by
    intro j hj
    simp only [execIds, List.mem_map] at hj
    obtain ⟨⟨a, b⟩, hp, hab⟩ := hj
    subst hab
    obtain ⟨h1, h2⟩ := hexecSub (a, b) hp
    exact ⟨mem_execIds h1, h2⟩
  have hqmem : ∀ j, j ∈ s'.queue → j ∈ s.queue ∨ j ∈ ready := by
    intro j hj
    rw [hq] at hj
    exact List.mem_append.mp hj
  refine ⟨?_, ?_, ?_, ?_, ?_, ?_, ?_, ?_, ?_, ?_, ?_, ?_, ?_, ?_, ?_, ?_⟩
  · intro j hj
    exact hpres j (hin.mapDom j ((hmap j).mp hj).1)
  · rw [hmfeq]
    exact (hin.mapNodup.filter _).filter _
  · rw [hq]
    rw [List.nodup_append]
    refine ⟨hin.qNodup, hrnd, ?_⟩
    intro a ha hb
    exact hreadyNot a hb (Or.inl ha)
  · have hids : execIds s' = (s.executing.filter
        (fun p => decide (p.1 ≠ i))).map Prod.fst := by
      simp [execIds, hexe]
    rw [hids]
    have hsub : List.Sublist ((s.executing.filter
        (fun p => decide (p.1 ≠ i))).map Prod.fst) (s.executing.map Prod.fst) :=
      (List.filter_sublist s.executing).map Prod.fst
    exact hin.eNodup.sublist hsub
  · rw [hcomp, List.nodup_append]
    exact ⟨hin.cNodup, List.nodup_singleton i,
      fun a ha hb => hiC ((List.mem_singleton.mp hb) ▸ ha)⟩
  · intro j hjq hje
    obtain ⟨hje1, -⟩ := hexecIdsSub j hje
    rcases hqmem j hjq with h1 | h1
    · exact hin.qeDisj j h1 hje1
    · exact hreadyNot j h1 (Or.inr (Or.inl hje1))
  · intro j hjq hjc
    rw [hcomp] at hjc
    rcases List.mem_append.mp hjc with h2 | h2
    · rcases hqmem j hjq with h1 | h1
      · exact hin.qcDisj j h1 h2
      · exact hreadyNot j h1 (Or.inr (Or.inr h2))
    · have hji : j = i := List.mem_singleton.mp h2
      subst hji
      rcases hqmem j hjq with h1 | h1
      · exact hin.qeDisj j h1 hiE
      · exact ((hrdy j).mp h1).2.1 rfl
  · intro j hje hjc
    obtain ⟨hje1, hjne⟩ := hexecIdsSub j hje
    rw [hcomp] at hjc
    rcases List.mem_append.mp hjc with h2 | h2
    · exact hin.ecDisj j hje1 h2
    · exact hjne (List.mem_singleton.mp h2)
  · intro j hjq
    rcases hqmem j hjq with h1 | h1
    · exact hpres j (hin.qDom j h1)
    · obtain ⟨-, -, r, hr, -, -⟩ := (hrdy j).mp h1
      exact hpres j (by rw [hr]; rfl)
  · intro p hp
    exact hpres p.1 (hin.eDom p (hexecSub p hp).1)
  · intro j hjc
    rw [hcomp] at hjc
    rcases List.mem_append.mp hjc with h2 | h2
    · exact hpres j (hin.cDom j h2)
    · rw [List.mem_singleton.mp h2]
      exact hpres i (hin.eDom (i, snap) hex)
  · intro p hp
    obtain ⟨hp1, -⟩ := hexecSub p hp
    obtain ⟨r, ext, hr, hrn⟩ := hin.snapPre p hp1
    obtain ⟨rr, hrr⟩ : ∃ rr, lookupRec p.1 s'.records = some rr := by
      have := hpres p.1 (by rw [hr]; rfl)
      cases h : lookupRec p.1 s'.records with
      | none => rw [h] at this; cases this
      | some rr => exact ⟨rr, rfl⟩
    obtain ⟨r0, hr0, hnx0, -, -, -, -⟩ := htrans p.1 rr hrr
    rw [hr] at hr0
    injection hr0 with hr0
    subst hr0
    exact ⟨rr, ext, hrr, by rw [hnx0, hrn]⟩
  · intro j rj' hj d hd
    obtain ⟨rj, hjl, -, hreg0, -, -, -⟩ := htrans j rj' hj
    rw [hreg0] at hd
    exact hpres d (hin.regDom j rj hjl d hd)
  · intro d rd' hd j
    obtain ⟨rd, hdl, hnx0, -, -, -, -⟩ := htrans d rd' hd
    rw [hnx0]
    have hedge := hin.edges d rd hdl j
    rw [hedge]
    cases hjs : lookupRec j s.records with
    | none =>
        have h2 := hnone j hjs
        simp only [hjs, h2]
    | some rj =>
        obtain ⟨rr, hrr⟩ : ∃ rr, lookupRec j s'.records = some rr := by
          have := hpres j (by rw [hjs]; rfl)
          cases h : lookupRec j s'.records with
          | none => rw [h] at this; cases this
          | some rr => exact ⟨rr, rfl⟩
        obtain ⟨rj0, hj0, -, hreg0, -, -, -⟩ := htrans j rr hrr
        rw [hjs] at hj0
        injection hj0 with hj0
        subst hj0
        simp only [hjs, hrr, hreg0]
  · intro u ru hu hru
    obtain ⟨hum, huni, hunr⟩ := (hmap u).mp hu
    obtain ⟨ru0, hu0, -, hreg0, -, -, hdeg0⟩ := htrans u ru hru
    rw [hcomp, hreg0, hdeg0, if_pos ⟨hum, huni⟩]
    have hdg := hin.degGe u ru0 hum hu0
    have hkey := key u ru0 hu0
    have hcp := cnt_le_pcnt s.completed ru0.registered i hiC
    have hpc := pcnt_append_one s.completed ru0.registered i hiC
    omega
  · intro u hu ru hru d hd
    rw [hcomp]
    obtain ⟨ru0, hu0, -, hreg0, -, -, -⟩ := htrans u ru hru
    rw [hreg0] at hd
    have hold : u ∈ s.queue ∨ u ∈ execIds s ∨ u ∈ s.completed →
        d ∈ s.completed ++ [i] := by
      intro hcase
      exact List.mem_append_left _ (hin.started u hcase ru0 hu0 d hd)
    rcases hu with h1 | h1 | h1
    · rcases hqmem u h1 with h2 | h2
      · exact hold (Or.inl h2)
      · obtain ⟨hum, huni, r, hr, hpos, hdeg⟩ := (hrdy u).mp h2
        rw [hu0] at hr
        injection hr with hr
        subst hr
        have hdg := hin.degGe u ru0 hum hu0
        have hkey := key u ru0 hu0
        have hcp := cnt_le_pcnt s.completed ru0.registered i hiC
        have hpc := pcnt_append_one s.completed ru0.registered i hiC
        have hz : pcnt (s.completed ++ [i]) ru0.registered = 0 := by omega
        exact pcnt_eq_zero (s.completed ++ [i]) ru0.registered hz d hd
    · obtain ⟨h2, -⟩ := hexecIdsSub u h1
      exact hold (Or.inr (Or.inl h2))
    · rw [hcomp] at h1
      rcases List.mem_append.mp h1 with h2 | h2
      · exact hold (Or.inr (Or.inr h2))
      · have hui : u = i := List.mem_singleton.mp h2
        subst hui
        exact hold (Or.inr (Or.inl hiE))

theorem reach_inv (s : MgrState) (h : Reach s) : Inv s := by
  induction h with
  | init => exact inv_init
  | submit t _ hf h0 hnx ih => exact inv_submit _ t ih hf h0 hnx
  | lifecycle op _ ih => exact inv_lifecycle _ ih _
  | pop hr hp ih => exact inv_pop _ _ ih hp
  | complete i snap hr hex hc ih => exact inv_complete _ _ i snap ih hex hc

/-! Claim theorems. -/

/-- C4: the lifecycle state machine: `run()` is Stopped→Running and a
successful no-op on Running; `stop()` is Running→Stopped and a successful
no-op on Stopped; `run()`/`stop()`/`shutdown()` on Shutdown return a
`StateError` and leave the state Shutdown; `shutdown()` is
{Running,Stopped}→Shutdown; and after a successful `shutdown()` every
sequence of further operations leaves the state Shutdown, each operation
failing — the state never re-enters a non-terminal state. -/
theorem lifecycle_transitions :
    runStep .Stopped = (.Running, true) ∧ runStep .Running = (.Running, true) ∧
    runStep .Shutdown = (.Shutdown, false) ∧
    stopStep .Running = (.Stopped, true) ∧ stopStep .Stopped = (.Stopped, true) ∧
    stopStep .Shutdown = (.Shutdown, false) ∧
    shutdownStep .Running = (.Shutdown, true) ∧
    shutdownStep .Stopped = (.Shutdown, true) ∧
    shutdownStep .Shutdown = (.Shutdown, false) ∧
    (∀ ops : List MOp, applyOps ops .Shutdown = .Shutdown) ∧
    (∀ op : MOp, (applyOp op .Shutdown).2 = false) := by
  refine ⟨rfl, rfl, rfl, rfl, rfl, rfl, rfl, rfl, rfl, ?_, ?_⟩
  · intro ops
    induction ops with
    | nil => rfl
    | cons op ops ih =>
        cases op <;>
          simpa [applyOps, applyOp, runStep, stopStep, shutdownStep] using ih
  · intro op
    cases op <;> rfl

/-- C8: submitting while the manager is `Shutdown` returns a `StateError`
and performs no mutation at all: the registry, every record (in-degree and
`next` list), and the ready queue are unchanged. -/
theorem submit_in_shutdown_no_mutation (t : Task) (s : MgrState)
    (hst : s.status = .Shutdown) :
    (submitR t s).2 = false ∧ (submitR t s).1 = s ∧
    (submitR t s).1.records = s.records ∧ (submitR t s).1.mapIds = s.mapIds ∧
    (submitR t s).1.queue = s.queue := by
  have h : submitR t s = (s, false) := by unfold submitR; rw [hst]
  rw [h]
  exact ⟨rfl, rfl, rfl, rfl, rfl⟩

/-- Witness for C8 at a concrete shut-down manager state. -/
theorem submit_in_shutdown_no_mutation_witness :
    ({ status := .Shutdown, records := [], mapIds := [], queue := [],
       executing := [], completed := [] } : MgrState).status = .Shutdown ∧
    (submitR (Task.mk 7 "w" [] .Pending "f" 0 [] true)
      { status := .Shutdown, records := [], mapIds := [], queue := [],
        executing := [], completed := [] }).2 = false :=
  ⟨rfl, (submit_in_shutdown_no_mutation _ _ rfl).1⟩

/-- C2: for a submission in a non-`Shutdown` state with the data model's
zero initial in-degree: the call succeeds; the new task's in-degree is
incremented by one for each declared dependency occurrence still present
in the registry and the new id is appended to each such dependency's
`next` list; declared ids absent from the registry have no effect on any
record; the task is always stored in the registry, and it is pushed onto
the ready queue exactly when its resulting in-degree is zero. -/
theorem submit_characterisation (t : Task) (s : MgrState)
    (hst : s.status ≠ .Shutdown) (h0 : t.in_degree = 0) :
    (submitR t s).2 = true ∧
    (∃ rt, lookupRec t.id (submitR t s).1.records = some rt ∧
      rt.in_degree = (t.depend.filter (fun d => decide (d ∈ s.mapIds))).length) ∧
    (∀ j, j ≠ t.id →
      lookupRec j (submitR t s).1.records = (lookupRec j s.records).map (fun r =>
        { r with next := r.next ++
            List.replicate (cnt j (t.depend.filter (fun d => decide (d ∈ s.mapIds)))) t.id })) ∧
    (∀ j, j ≠ t.id → j ∉ s.mapIds →
      lookupRec j (submitR t s).1.records = lookupRec j s.records) ∧
    t.id ∈ (submitR t s).1.mapIds ∧
    (submitR t s).1.queue =
      (if (t.depend.filter (fun d => decide (d ∈ s.mapIds))).length = 0
        then s.queue ++ [t.id] else s.queue) := by
  obtain ⟨hok, -, -, -, hmap, hself, hnew, hqueue⟩ := submitR_spec t s hst
  rw [h0] at hself
  simp only [Nat.zero_add] at hself
  refine ⟨hok, ⟨_, hself, rfl⟩, hnew, ?_, ?_, hqueue⟩
  · intro j hjt hjm
    rw [hnew j hjt]
    have hz : cnt j (t.depend.filter (fun d => decide (d ∈ s.mapIds))) = 0 := by
      rw [cnt_eq_zero_iff]
      intro hmem
      exact hjm (by simpa using (List.mem_filter.mp hmem).2)
    rw [hz]
    cases h : lookupRec j s.records <;> simp
  · rw [hmap]
    exact List.mem_cons_self _ _

/-- Witness for C2: submitting a task with one already-satisfied (absent)
dependency into a fresh manager. -/
theorem submit_characterisation_witness :
    initState.status ≠ ManagerStatus.Shutdown ∧
    (Task.mk 0 "t" [5] .Pending "f" 0 [] true).in_degree = 0 ∧
    (submitR (Task.mk 0 "t" [5] .Pending "f" 0 [] true) initState).2 = true :=
  ⟨by decide, rfl,
    (submit_characterisation (Task.mk 0 "t" [5] .Pending "f" 0 [] true) initState
      (by decide) rfl).1⟩

/-- C3: the completion step for a popped task `i` with `next` snapshot
`snap`, under the no-underflow precondition its assertion requires:
`i` is removed from the registry; every id of the snapshot still in the
registry has its in-degree decremented by exactly one per occurrence; ids
not in the registry are skipped (their records unchanged); and the tasks
whose in-degree thereby reaches zero are exactly the ones appended to the
ready queue and removed from the registry's pending bookkeeping. -/
theorem completion_characterisation (i : Nat) (snap : List Nat) (s : MgrState)
    (hok : ∀ n r, n ∈ s.mapIds → n ≠ i → lookupRec n s.records = some r →
      cnt n snap ≤ r.in_degree) :
    ∃ s' ready, completeF i snap s = some s' ∧
      i ∉ s'.mapIds ∧
      s'.queue = s.queue ++ ready ∧
      (∀ n, n ∈ ready ↔ n ∈ s.mapIds ∧ n ≠ i ∧ ∃ r, lookupRec n s.records = some r ∧
          0 < cnt n snap ∧ r.in_degree = cnt n snap) ∧
      (∀ n, n ∈ s'.mapIds ↔ n ∈ s.mapIds ∧ n ≠ i ∧ n ∉ ready) ∧
      (∀ n r, n ∈ s.mapIds → n ≠ i → lookupRec n s.records = some r →
        lookupRec n s'.records = some { r with in_degree := r.in_degree - cnt n snap }) ∧
      (∀ n, (n ∈ s.mapIds → n = i) →
        lookupRec n s'.records = lookupRec n s.records) := by
  obtain ⟨s', ready, hcf, -, hq, -, -, -, hrdy, -, hmap, hform⟩ :=
    completeF_spec i snap s hok
  refine ⟨s', ready, hcf, ?_, hq, hrdy, hmap, ?_, ?_⟩
  · intro hmem
    exact ((hmap i).mp hmem).2.1 rfl
  · intro n r hn hni hl
    rw [hform n, hl, if_pos ⟨hn, hni⟩]
    rfl
  · intro n hcase
    rw [hform n]
    have hgate : ¬(n ∈ s.mapIds ∧ n ≠ i) := by
      rintro ⟨h1, h2⟩
      exact h2 (hcase h1)
    rw [if_neg hgate]
    cases h : lookupRec n s.records <;> simp

/-- Witness for C3: completing the first of two chained tasks releases the
second. -/
theorem completion_characterisation_witness :
    (∀ n r, n ∈ (MgrState.mk .Running
        [(1, ⟨1, [], true, [0], [0]⟩), (0, ⟨0, [1], true, [], []⟩)]
        [1, 0] [] [(0, [1])] []).mapIds → n ≠ 0 →
      lookupRec n (MgrState.mk .Running
        [(1, ⟨1, [], true, [0], [0]⟩), (0, ⟨0, [1], true, [], []⟩)]
        [1, 0] [] [(0, [1])] []).records = some r → cnt n [1] ≤ r.in_degree) ∧
    (completeF 0 [1] (MgrState.mk .Running
        [(1, ⟨1, [], true, [0], [0]⟩), (0, ⟨0, [1], true, [], []⟩)]
        [1, 0] [] [(0, [1])] [])).isSome = true := by
  have hok : ∀ n r, n ∈ (MgrState.mk .Running
      [(1, ⟨1, [], true, [0], [0]⟩), (0, ⟨0, [1], true, [], []⟩)]
      [1, 0] [] [(0, [1])] []).mapIds → n ≠ 0 →
      lookupRec n (MgrState.mk .Running
        [(1, ⟨1, [], true, [0], [0]⟩), (0, ⟨0, [1], true, [], []⟩)]
        [1, 0] [] [(0, [1])] []).records = some r → cnt n [1] ≤ r.in_degree := by
    intro n r hn hni hl
    have hn' : n = 1 ∨ n = 0 := by simpa using hn
    rcases hn' with h | h
    · subst h
      have h2 : some (TaskRec.mk 1 [] true [0] [0]) = some r := hl
      injection h2 with h2
      subst h2
      decide
    · exact absurd h hni
  refine ⟨hok, ?_⟩
  obtain ⟨s', ready, hcf, -⟩ := completion_characterisation 0 [1] _ hok
  rw [hcf]
  rfl

/-- C10: in every reachable state (submissions carry fresh ids), the
completion block for any task currently held by a worker succeeds: whenever
a `next`-list id is found in the registry, its in-degree is strictly
positive at the decrement, so the `assert_ne!` never fires and the
decrement never underflows. -/
theorem completion_assert_never_fails (s : MgrState) (h : Reach s)
    (i : Nat) (snap : List Nat) (hex : (i, snap) ∈ s.executing) :
    (completeF i snap s).isSome = true := by
  have hin := reach_inv s h
  have hok := inv_hok s hin i snap hex
  obtain ⟨s', ready, hcf, -⟩ := completeF_spec i snap s hok
  rw [hcf]
  rfl

/-- Witness for C10 at the reachable state in which one worker holds the
only submitted task. -/
theorem completion_assert_never_fails_witness :
    (completeF 0 [] (MgrState.mk .Running [(0, ⟨0, [], true, [], []⟩)]
      [0] [] [(0, [])] [])).isSome = true := by
  have h0 : Reach initState := Reach.init
  have h1 : Reach { initState with status := (applyOp MOp.run initState.status).1 } :=
    Reach.lifecycle MOp.run h0
  have h2 : Reach (submitR ⟨0, "a", [], .Pending, "oa", 0, [], true⟩
      { initState with status := (applyOp MOp.run initState.status).1 }).1 :=
    Reach.submit _ h1 (by decide) rfl rfl
  have h3 : Reach (MgrState.mk .Running [(0, ⟨0, [], true, [], []⟩)]
      [0] [] [(0, [])] []) := Reach.pop h2 (by decide)
  exact completion_assert_never_fails _ h3 0 [] (by decide)

/-- C1 (amended: restricted to the dependencies still present in the
registry at submission, i.e. the registered ones — a dependency already
released from the registry but not yet completed at the dependent's
submission is silently skipped by `is_ready` and not covered): in every
reachable state, a task that has been dequeued (being executed, or already
completed) has every dependency registered at its submission already
completed; so under any interleaving of submit, dequeue and completion
steps a task never starts before its registered dependencies have all
completed. -/
theorem dequeue_only_after_registered_deps_complete (s : MgrState)
    (h : Reach s) (t : Nat)
    (hdq : (∃ st, (t, st) ∈ s.executing) ∨ t ∈ s.completed)
    (rt : TaskRec) (hrt : lookupRec t s.records = some rt) :
    ∀ d ∈ rt.registered, d ∈ s.completed := by
  have hin := reach_inv s h
  refine hin.started t ?_ rt hrt
  rcases hdq with ⟨st, hst⟩ | hc
  · exact Or.inr (Or.inl (mem_execIds hst))
  · exact Or.inr (Or.inr hc)

/-- Witness for C1 (amended): task 1 registered a dependency on task 0 and
is being executed, and indeed task 0 is completed. -/
theorem dequeue_only_after_registered_deps_complete_witness :
    (0 : Nat) ∈ (MgrState.mk .Running
      [(1, ⟨0, [], true, [0], [0]⟩), (0, ⟨0, [1], true, [], []⟩)]
      [] [] [(1, [])] [0]).completed := by
  have h0 : Reach initState := Reach.init
  have h1 : Reach { initState with status := (applyOp MOp.run initState.status).1 } :=
    Reach.lifecycle MOp.run h0
  have h2 : Reach (submitR ⟨0, "a", [], .Pending, "oa", 0, [], true⟩
      { initState with status := (applyOp MOp.run initState.status).1 }).1 :=
    Reach.submit _ h1 (by decide) rfl rfl
  have h3 : Reach (submitR ⟨1, "b", [0], .Pending, "ob", 0, [], true⟩
      (submitR ⟨0, "a", [], .Pending, "oa", 0, [], true⟩
        { initState with status := (applyOp MOp.run initState.status).1 }).1).1 :=
    Reach.submit _ h2 (by decide) rfl rfl
  have h4 : Reach (MgrState.mk .Running
      [(1, ⟨1, [], true, [0], [0]⟩), (0, ⟨0, [1], true, [], []⟩)]
      [1, 0] [] [(0, [1])] []) := Reach.pop h3 (by decide)
  have h5 : Reach (MgrState.mk .Running
      [(1, ⟨0, [], true, [0], [0]⟩), (0, ⟨0, [1], true, [], []⟩)]
      [] [1] [] [0]) := Reach.complete 0 [1] h4 (by decide) (by decide)
  have h6 : Reach (MgrState.mk .Running
      [(1, ⟨0, [], true, [0], [0]⟩), (0, ⟨0, [1], true, [], []⟩)]
      [] [] [(1, [])] [0]) := Reach.pop h5 (by decide)
  exact dequeue_only_after_registered_deps_complete _ h6 1
    (Or.inl ⟨[], by decide⟩) ⟨0, [], true, [0], [0]⟩ (by decide) 0 (by decide)

/-- Counterexample to C1 as stated: task 2 is submitted declaring a
dependency on the submitted-but-uncompleted task 1 at a moment when task 1
has already been released from the registry into the ready queue; the
dependency is silently skipped, and task 2 is dequeued while task 1 is
still executing. -/
theorem dequeued_before_declared_dep_completes : ¬claimC1stated := by
  intro h
  have h0 : Reach initState := Reach.init
  have h1 : Reach { initState with status := (applyOp MOp.run initState.status).1 } :=
    Reach.lifecycle MOp.run h0
  have h2 : Reach (submitR ⟨0, "a", [], .Pending, "oa", 0, [], true⟩
      { initState with status := (applyOp MOp.run initState.status).1 }).1 :=
    Reach.submit _ h1 (by decide) rfl rfl
  have h3 : Reach (submitR ⟨1, "b", [0], .Pending, "ob", 0, [], true⟩
      (submitR ⟨0, "a", [], .Pending, "oa", 0, [], true⟩
        { initState with status := (applyOp MOp.run initState.status).1 }).1).1 :=
    Reach.submit _ h2 (by decide) rfl rfl
  have h4 : Reach (MgrState.mk .Running
      [(1, ⟨1, [], true, [0], [0]⟩), (0, ⟨0, [1], true, [], []⟩)]
      [1, 0] [] [(0, [1])] []) := Reach.pop h3 (by decide)
  have h5 : Reach (MgrState.mk .Running
      [(1, ⟨0, [], true, [0], [0]⟩), (0, ⟨0, [1], true, [], []⟩)]
      [] [1] [] [0]) := Reach.complete 0 [1] h4 (by decide) (by decide)
  have h6 : Reach (submitR ⟨2, "c", [1], .Pending, "oc", 0, [], true⟩
      (MgrState.mk .Running
        [(1, ⟨0, [], true, [0], [0]⟩), (0, ⟨0, [1], true, [], []⟩)]
        [] [1] [] [0])).1 := Reach.submit _ h5 (by decide) rfl rfl
  have h7 : Reach (MgrState.mk .Running
      [(2, ⟨0, [], true, [], [1]⟩), (1, ⟨0, [], true, [0], [0]⟩),
       (0, ⟨0, [1], true, [], []⟩)]
      [2] [2] [(1, [])] [0]) := Reach.pop h6 (by decide)
  have h8 : Reach (MgrState.mk .Running
      [(2, ⟨0, [], true, [], [1]⟩), (1, ⟨0, [], true, [0], [0]⟩),
       (0, ⟨0, [1], true, [], []⟩)]
      [2] [] [(1, []), (2, [])] [0]) := Reach.pop h7 (by decide)
  have hc := h _ h8 2 [] (by decide) ⟨0, [], true, [], [1]⟩ (by decide) 1
    (by decide) (by decide)
  exact absurd hc (by decide)

/-- Counterexample to C5 as stated: `shutdown()` invoked while a worker is
executing a task returns `Ok` immediately with that worker still running — it
joins nothing. -/
theorem shutdown_leaves_worker_running : ¬claimC5stated := by
  intro h
  have hc := h (Sys.mk
    (MgrState.mk .Running [(0, ⟨0, [], true, [], []⟩)] [0] [] [(0, [])] [])
    (.running 0 [] true) .Running) (by decide) 0 [] true
  exact hc (by decide)

/-- C5 (amended): `shutdown()` in `Running` or `Stopped` sets the status to
`Shutdown` and returns `Ok` immediately; it joins no worker thread (the
`threads` handles are never joined) and leaves the worker's state — possibly
still running a task — untouched. -/
theorem shutdown_sets_state_without_join (s : Sys)
    (hst : s.mgr.status ≠ .Shutdown) :
    (mshutdown s).2 = true ∧ (mshutdown s).1.mgr.status = .Shutdown ∧
    (mshutdown s).1.wctl = s.wctl ∧ (mshutdown s).1.statusV = s.statusV ∧
    (mshutdown s).1.mgr.queue = s.mgr.queue ∧
    (mshutdown s).1.mgr.executing = s.mgr.executing := by
  unfold mshutdown
  cases hs : s.mgr.status with
  | Running => exact ⟨rfl, rfl, rfl, rfl, rfl, rfl⟩
  | Stopped => exact ⟨rfl, rfl, rfl, rfl, rfl, rfl⟩
  | Shutdown => exact absurd hs hst

/-- Witness for C5 (amended) with a worker mid-execution. -/
theorem shutdown_sets_state_without_join_witness :
    (Sys.mk (MgrState.mk .Running [(0, ⟨0, [], true, [], []⟩)] [0] [] [(0, [])] [])
      (.running 0 [] true) .Running).mgr.status ≠ ManagerStatus.Shutdown ∧
    (mshutdown (Sys.mk
      (MgrState.mk .Running [(0, ⟨0, [], true, [], []⟩)] [0] [] [(0, [])] [])
      (.running 0 [] true) .Running)).2 = true :=
  ⟨by decide, (shutdown_sets_state_without_join _ (by decide)).1⟩

/-- Counterexample to C6 as stated: a worker blocked in `pop` on the empty
queue is still blocked there after `stop()` and after `shutdown()` — neither
notifies the queue's condition variable. -/
theorem stop_shutdown_do_not_wake_popwait : ¬claimC6stated := by
  intro h
  obtain ⟨h1, -⟩ := h (Sys.mk (MgrState.mk .Running [] [] [] [] [])
    .popWait .Running) rfl
  exact h1 (by decide)

/-- C6 (amended): a worker suspended in `pop` on an empty ready queue is
unblocked only by a `push`: `stop()`, `shutdown()` and `run()` all leave it
blocked (none of them notifies the queue's condition variable), while a
`push` hands it the pushed task; separately, a worker whose local status
copy reads `Shutdown` at the top of its loop exits without consuming
further work. -/
theorem popwait_woken_only_by_push (s : Sys) (hw : s.wctl = .popWait) :
    (mstop s).1.wctl = .popWait ∧
    (mshutdown s).1.wctl = .popWait ∧
    (mrun s).1.wctl = .popWait ∧
    (∀ i, s.mgr.queue = [] →
      (mpush i s).wctl = .running i (snapOf i { s.mgr with queue := [i] })
        (testOf i { s.mgr with queue := [i] })) ∧
    (∀ s2 : Sys, s2.wctl = .outerCheck → s2.statusV = .Shutdown →
      wstep s2 = { s2 with wctl := .exited }) := by
  refine ⟨?_, ?_, ?_, ?_, ?_⟩
  · unfold mstop
    cases s.mgr.status <;> simp [hw]
  · unfold mshutdown
    cases s.mgr.status <;> simp [hw]
  · unfold mrun
    cases s.mgr.status <;> simp [hw]
  · intro i hq
    unfold mpush
    rw [hw, hq]
    simp
  · intro s2 h1 h2
    unfold wstep
    rw [h1, h2]
    simp

/-- Witness for C6 (amended) with a worker blocked on the empty queue. -/
theorem popwait_woken_only_by_push_witness :
    (Sys.mk (MgrState.mk .Running [] [] [] [] []) .popWait .Running).wctl =
      WCtl.popWait ∧
    (mstop (Sys.mk (MgrState.mk .Running [] [] [] [] [])
      .popWait .Running)).1.wctl = WCtl.popWait :=
  ⟨rfl, (popwait_woken_only_by_push _ rfl).1⟩

/-- Counterexample to C7 as stated: a stub task whose write fails makes the
worker's closure return the error through `?`: the completion block is
skipped (the dependent's in-degree is never decremented, the task stays in
the registry) and the worker loop terminates instead of popping again. -/
theorem stub_failure_not_confined : ¬claimC7stated := by
  intro h
  obtain ⟨h1, -⟩ := h (Sys.mk (MgrState.mk .Running
      [(1, ⟨1, [], true, [0], [0]⟩), (0, ⟨0, [1], true, [], []⟩)]
      [1, 0] [] [(0, [1])] [])
    (.running 0 [1] true) .Running) 0 [1] rfl
  exact absurd h1 (by decide)

/-- C7 (amended): when a stub task's write fails, the worker's closure
returns the error at once: the loop terminates (`errored`), and the
completion update is skipped entirely — the scheduler state, including the
registry entry of the failed task's dependents, is unchanged, so they are
never released. -/
theorem stub_failure_aborts_worker_loop (s : Sys) (i : Nat) (snap : List Nat)
    (hw : s.wctl = .running i snap true) :
    (wfinish false s).wctl = .errored ∧ (wfinish false s).mgr = s.mgr := by
  unfold wfinish
  rw [hw]
  exact ⟨rfl, rfl⟩

/-- Witness for C7 (amended) with a failing stub task that has a pending
dependent. -/
theorem stub_failure_aborts_worker_loop_witness :
    (Sys.mk (MgrState.mk .Running
        [(1, ⟨1, [], true, [0], [0]⟩), (0, ⟨0, [1], true, [], []⟩)]
        [1, 0] [] [(0, [1])] [])
      (.running 0 [1] true) .Running).wctl = WCtl.running 0 [1] true ∧
    (wfinish false (Sys.mk (MgrState.mk .Running
        [(1, ⟨1, [], true, [0], [0]⟩), (0, ⟨0, [1], true, [], []⟩)]
        [1, 0] [] [(0, [1])] [])
      (.running 0 [1] true) .Running)).wctl = WCtl.errored :=
  ⟨rfl, (stub_failure_aborts_worker_loop _ 0 [1] rfl).1⟩

/-- Counterexample to C9 as stated: executing a non-stub task performs no
action at all — no process is spawned and no `_STDOUT`/`_ERR` file is
written. -/
theorem nonstub_task_spawns_nothing_cex : ¬claimC9stated := by
  intro h
  obtain ⟨⟨c, hc⟩, -, -⟩ := h ⟨0, "t", [], .Pending, "f", 0, [], false⟩ rfl
  simp [workerExecActs] at hc

/-- C9 (amended): the worker body executes nothing for a non-stub task:
its execution branch performs no action (no spawned process, no output
files); only stub-mode tasks produce their single dump file. -/
theorem nonstub_task_executes_nothing (t : Task) (ht : t.test = false) :
    workerExecActs t = [] := by
  simp [workerExecActs, ht]

/-- Witness for C9 (amended) at a concrete non-stub task. -/
theorem nonstub_task_executes_nothing_witness :
    (Task.mk 0 "t" [] .Pending "f" 0 [] false).test = false ∧
    workerExecActs (Task.mk 0 "t" [] .Pending "f" 0 [] false) = [] :=
  ⟨rfl, nonstub_task_executes_nothing _ rfl⟩

end Talps
